import Mathlib

/-!
Verification of the EstimNetDirected estimation/simulation engine
(equilibrium-expectation ERGM estimation).  The definitions below are a
shallow embedding of the C sources: `ifdSampler.c` (the improved fixed
density MCMC sampler), `equilibriumExpectation.c` (Algorithm S, Algorithm
EE, `ee_estimate`, `do_estimation`) and `simulation.c` (`do_simulation`,
the program entry point).  Real (C `double`) arithmetic is embedded as
exact rational arithmetic `ℚ`; where finiteness of IEEE values matters an
explicit value type with infinities and NaN is used.  Randomness and the
external change-statistic functions are abstracted by oracles: each MCMC
proposal consumes a `Draw` recording which candidate the uniform sampling
loops settled on and whether the Metropolis test accepted.
-/

/-- Classification of an IEEE `double` as needed by the degeneracy guard:
a finite value is carried exactly as a rational, and the non-finite values
`+inf`, `-inf` and NaN are explicit constructors. -/
inductive FVal where
  | fin : ℚ → FVal
  | pinf : FVal
  | ninf : FVal
  | nan : FVal
deriving DecidableEq, Repr

/-- C `isinf`: nonzero exactly on the two infinities; `isinf(NaN)` is 0. -/
def FVal.isinf : FVal → Bool
  | FVal.pinf => true
  | FVal.ninf => true
  | _ => false

/-- C `isfinite`: true exactly on finite values (false on infinities and NaN). -/
def FVal.isfinite : FVal → Bool
  | FVal.fin _ => true
  | _ => false

/-- Outcome of `ee_estimate` (equilibriumExpectation.c): the returned error
code and whether Algorithm EE was entered. -/
structure EEResult where
  errcode : ℕ
  ranAlgEE : Bool
deriving DecidableEq, Repr

/-- Model of the tail of `ee_estimate` (equilibriumExpectation.c lines
703-733): after Algorithm S produced the derivative vector `Dmean`, the
loop `for (i...) if (isinf(Dmean[i])) errcode = 1;` runs, and Algorithm EE
is entered iff `errcode == 0`; `errcode` is the return value. -/
def ee_estimate (Dmean : List FVal) : EEResult :=
  let errcode := Dmean.foldl (fun acc d => if d.isinf then 1 else acc) 0
  ⟨errcode, errcode == 0⟩

/-- Environment of one `do_estimation` run: the outcomes of the external
operations (file opens, attribute loading) it performs, the configuration
fields it inspects, and the derivative vector that Algorithm S produces
inside `ee_estimate`. -/
structure EstimEnv where
  arclistOk : Bool
  zoneFileGiven : Bool
  zoneLoadOk : Bool
  attrOk : Bool
  dyadicOk : Bool
  interactionOk : Bool
  thetaOpenOk : Bool
  dzAOpenOk : Bool
  useIFDsampler : Bool
  paramNames : List String
  useConditionalEstimation : Bool
  maxZone : ℕ
  Dmean : List FVal

/-- Outcome of `do_estimation`: its return value, whether the
`ee_estimate` call was reached, whether Algorithm EE ran inside it, and
the (discarded) return value of `ee_estimate` when it was called. -/
structure EstimOutcome where
  retcode : ℤ
  calledEE : Bool
  ranAlgEE : Bool
  eeCode : Option ℕ
deriving DecidableEq, Repr

/-- Case-insensitive ASCII character equality: equal code points, or the
same letter in the two cases (`tolower` maps code points 65-90 to 97-122
by adding 32). -/
def charCaseEq (a b : Char) : Bool :=
  a.toNat == b.toNat ||
  (decide (65 ≤ a.toNat) && decide (a.toNat ≤ 90) && (a.toNat + 32 == b.toNat)) ||
  (decide (65 ≤ b.toNat) && decide (b.toNat ≤ 90) && (b.toNat + 32 == a.toNat))

/-- Pointwise case-insensitive equality of two character lists. -/
def charListCaseEq : List Char → List Char → Bool
  | [], [] => true
  | a :: as, b :: bs => charCaseEq a b && charListCaseEq as bs
  | _, _ => false

/-- Case-insensitive string comparison, modelling C `strcasecmp(a,b) == 0`. -/
def strCaseEq (a b : String) : Bool :=
  charListCaseEq a.data b.data

/-- Test whether the structural parameter name list contains the "Arc"
parameter (`ARC_PARAM_STR`), compared with `strcasecmp` as in
`do_estimation`. -/
def containsArcName (names : List String) : Bool :=
  names.any (fun s => strCaseEq s "Arc")

/-- Model of `do_estimation` (equilibriumExpectation.c lines 748-963): the
sequence of early `return -1` checks in source order (arc-list open,
snowball zones, attribute/dyadic/interaction index building, theta file
open, the IFD+Arc refusal, the conditional-estimation checks, dzA file
open), then the call to `ee_estimate` whose return value is not captured,
and the final `return 0`. -/
def do_estimation (e : EstimEnv) : EstimOutcome :=
  if !e.arclistOk then ⟨-1, false, false, none⟩
  else if e.zoneFileGiven && !e.zoneLoadOk then ⟨-1, false, false, none⟩
  else if !e.attrOk then ⟨-1, false, false, none⟩
  else if !e.dyadicOk then ⟨-1, false, false, none⟩
  else if !e.interactionOk then ⟨-1, false, false, none⟩
  else if !e.thetaOpenOk then ⟨-1, false, false, none⟩
  else if e.useIFDsampler && containsArcName e.paramNames then
    ⟨-1, false, false, none⟩
  else if e.useConditionalEstimation && !e.zoneFileGiven then
    ⟨-1, false, false, none⟩
  else if e.useConditionalEstimation && decide (e.maxZone < 1) then
    ⟨-1, false, false, none⟩
  else if !e.dzAOpenOk then ⟨-1, false, false, none⟩
  else
    let r := ee_estimate e.Dmean
    ⟨0, true, r.ranAlgEE, some r.errcode⟩

/-- Model of `main` (EstimNetDirectedMain.c): after a successful config
parse the process exit code is the value returned by `do_estimation`
(`rc = do_estimation(config, 0); exit(rc);`); a parse failure exits 1. -/
def estimnetMainExit (parseOk : Bool) (e : EstimEnv) : ℤ :=
  if parseOk then (do_estimation e).retcode else 1

/-- Environment of one `do_simulation` run (simulation.c): outcomes of its
external operations and the configuration fields it inspects. -/
structure SimEnv where
  attrLoadOk : Bool
  zoneFileGiven : Bool
  zoneLoadOk : Bool
  attrOk : Bool
  dyadicOk : Bool
  interactionOk : Bool
  useIFDsampler : Bool
  paramNames : List String
  useConditionalEstimation : Bool
  maxZone : ℕ

/-- Outcome of `do_simulation`: return value and whether the sampler was
run (i.e. `simulate_ergm` was reached). -/
structure SimOutcome where
  retcode : ℤ
  ranSampler : Bool
deriving DecidableEq, Repr

/-- Model of `do_simulation` (simulation.c lines 156-284): the sequence of
early `return -1` checks in source order (attribute loading, snowball
zones, attribute/dyadic/interaction index building, the
conditional-estimation checks), then `simulate_ergm` is called, which runs
the selected sampler, and 0 is returned.  There is no check relating
`useIFDsampler` to the parameter name list. -/
def do_simulation (e : SimEnv) : SimOutcome :=
  if !e.attrLoadOk then ⟨-1, false⟩
  else if e.zoneFileGiven && !e.zoneLoadOk then ⟨-1, false⟩
  else if !e.attrOk then ⟨-1, false⟩
  else if !e.dyadicOk then ⟨-1, false⟩
  else if !e.interactionOk then ⟨-1, false⟩
  else if e.useConditionalEstimation && !e.zoneFileGiven then ⟨-1, false⟩
  else if e.useConditionalEstimation && decide (e.maxZone < 1) then ⟨-1, false⟩
  else ⟨0, true⟩

/-- Mathematical sign function on rationals, as the specification writes
`sign(x)`: -1, 0 or 1. -/
def signq (x : ℚ) : ℚ :=
  if x < 0 then -1 else if x = 0 then 0 else 1

/-- Per-position output of one sampler call as consumed by Algorithm S and
Algorithm EE: the summed change statistics over accepted add moves and
over accepted delete moves (`addChangeStats` / `delChangeStats`), as a
function of the parameter position `l`. -/
structure SOut where
  add : ℕ → ℚ
  del : ℕ → ℚ

/-- One iteration of the Algorithm S loop body (equilibriumExpectation.c
lines 280-294), acting on the pair (theta, D0) pointwise in the position
`l`:
`dzA = del - add`, `sum = add + del`, `D0 += dzA*dzA`,
`da = (sum < 0 or sum > 0) ? ACA/(sum*sum) : 0`,
`theta += (dzA < 0 ? -1 : 1) * da * dzA*dzA`. -/
def algS_iter (ACA : ℚ) (out : SOut) (p : (ℕ → ℚ) × (ℕ → ℚ)) :
    (ℕ → ℚ) × (ℕ → ℚ) :=
  (fun l =>
    let dzA := out.del l - out.add l
    let sumv := out.add l + out.del l
    let da := if sumv < 0 ∨ sumv > 0 then ACA / (sumv * sumv) else 0
    p.1 l + (if dzA < 0 then -1 else 1) * da * (dzA * dzA),
   fun l =>
    let dzA := out.del l - out.add l
    p.2 l + dzA * dzA)

/-- State of Algorithm S after consuming a list of sampler outputs:
theta is initialised to all zeros (`theta[l] = 0`) and D0 to all zeros
(`safe_calloc`), then `algS_iter` is applied once per iteration. -/
def algS_run (ACA : ℚ) (outs : List SOut) : (ℕ → ℚ) × (ℕ → ℚ) :=
  outs.foldl (fun p out => algS_iter ACA out p) (fun _ => 0, fun _ => 0)

/-- Model of `algorithm_S` (equilibriumExpectation.c lines 208-307), with
the per-iteration sampler call abstracted to its output vector pair:
returns the final theta and the derivative estimate
`Dmean[l] = sampler_m / D0[l]`. -/
def algorithm_S (ACA sampler_m : ℚ) (outs : List SOut) :
    (ℕ → ℚ) × (ℕ → ℚ) :=
  let p := algS_run ACA outs
  (p.1, fun l => sampler_m / p.2 l)

/-- One inner iteration of the Algorithm EE loop body
(equilibriumExpectation.c lines 477-494), acting pointwise on
(theta, dzA): first `dzA[l] += add[l] - del[l]` (the accumulator is never
reset), then the theta step: with `useBorisenkoUpdate` it is
`(dzA < 0 ? 1 : -1) * learningRate * MAX(fabs(theta), minTheta)`, else
`(dzA < 0 ? 1 : -1) * (D0*ACA) * dzA*dzA`. -/
def algorithm_EE_innerStep (useBorisenko : Bool) (ACA learningRate minTheta : ℚ)
    (D0 : ℕ → ℚ) (out : SOut) (p : (ℕ → ℚ) × (ℕ → ℚ)) :
    (ℕ → ℚ) × (ℕ → ℚ) :=
  let dz := fun l => p.2 l + (out.add l - out.del l)
  (fun l =>
    p.1 l +
      (if useBorisenko then
        (if dz l < 0 then 1 else -1) * learningRate * max |p.1 l| minTheta
      else
        (if dz l < 0 then 1 else -1) * (D0 l * ACA) * (dz l * dz l)),
   dz)

/-- Inner loop of Algorithm EE over a list of sampler outputs, starting
from the theta produced by Algorithm S and the dzA accumulator zeroed
once at the start (`safe_calloc`); `algorithm_EE_innerStep` is applied
once per inner iteration. -/
def algorithm_EE_run (useBorisenko : Bool) (ACA learningRate minTheta : ℚ)
    (D0 theta0 : ℕ → ℚ) (outs : List SOut) : (ℕ → ℚ) × (ℕ → ℚ) :=
  outs.foldl
    (fun p out => algorithm_EE_innerStep useBorisenko ACA learningRate minTheta D0 out p)
    (theta0, fun _ => 0)

/-- A directed arc i -> j. -/
abbrev Arc := ℕ × ℕ

/-- Modelled from the spec: the graph store (graph.c is not among the
sources; only its callers and the header are).  The mutable part is the
flat arc list `allarcs` (spec section 4.1: `allarcs.size == num_arcs` and
every entry is a present arc).  The snowball side list `allinnerarcs`
(arcs with both endpoints in the inner waves) and the citation side list
`all_maxtermsender_arcs` (arcs whose tail is a max-term node) are
determined by the arc list and the immutable per-node zone/term data,
here abstracted to the two node predicates. -/
structure Graph where
  num_nodes : ℕ
  arcs : List Arc
  innerNode : ℕ → Bool
  maxtermNode : ℕ → Bool

/-- Number of arcs of the graph (`g->num_arcs`, equal to the length of
`allarcs`). -/
def numArcs (g : Graph) : ℕ := g.arcs.length

/-- Boolean membership of an arc in an arc list (`isArc`). -/
def arcMem (l : List Arc) (a : Arc) : Bool := decide (a ∈ l)

/-- Out-degree of node i: the number of arcs leaving i. -/
def outdeg (g : Graph) (i : ℕ) : ℕ :=
  g.arcs.countP (fun a => a.1 == i)

/-- In-degree of node j: the number of arcs entering j. -/
def indeg (g : Graph) (j : ℕ) : ℕ :=
  g.arcs.countP (fun a => a.2 == j)

/-- Mixed two-path counter for the ordered pair (i,j): the number of
nodes k with arcs i -> k and k -> j (spec section 8). -/
def mixTwoPathCount (g : Graph) (i j : ℕ) : ℕ :=
  (List.range g.num_nodes).countP
    (fun k => arcMem g.arcs (i, k) && arcMem g.arcs (k, j))

/-- In-two-path counter for (i,j): the number of nodes k with arcs
k -> i and k -> j. -/
def inTwoPathCount (g : Graph) (i j : ℕ) : ℕ :=
  (List.range g.num_nodes).countP
    (fun k => arcMem g.arcs (k, i) && arcMem g.arcs (k, j))

/-- Out-two-path counter for (i,j): the number of nodes k with arcs
i -> k and j -> k. -/
def outTwoPathCount (g : Graph) (i j : ℕ) : ℕ :=
  (List.range g.num_nodes).countP
    (fun k => arcMem g.arcs (i, k) && arcMem g.arcs (j, k))

/-- The snowball conditional-estimation side list `allinnerarcs`: arcs
whose two endpoints are both inner-wave nodes. -/
def innerArcsList (g : Graph) : List Arc :=
  g.arcs.filter (fun a => g.innerNode a.1 && g.innerNode a.2)

/-- The citation conditional-estimation side list
`all_maxtermsender_arcs`: arcs whose tail is a max-term node. -/
def maxtermArcsList (g : Graph) : List Arc :=
  g.arcs.filter (fun a => g.maxtermNode a.1)

/-- Remove the first occurrence of an arc from an arc list.  Modelled
from the spec: `removeArc` takes the arc out of `allarcs` by an O(1)
swap-with-last of the chosen entry; at the level of the arc multiset this
removes exactly one copy of the chosen arc, which is what this function
does. -/
def eraseArc : List Arc → Arc → List Arc
  | [], _ => []
  | b :: t, a => if b = a then t else b :: eraseArc t a

/-- The active constraint regime of the IFD sampler: plain (no
conditioning), snowball conditional estimation (`useConditionalEstimation`)
or citation ERGM (`citationERGM`). -/
inductive Regime where
  | plain : Regime
  | snowball : Regime
  | citation : Regime
deriving DecidableEq, Repr

/-- The list from which a delete move of the IFD sampler picks its
candidate uniformly at random: `allarcs` in the plain regime
(ifdSampler.c line 309), `allinnerarcs` in the snowball regime (line 247),
`all_maxtermsender_arcs` in the citation regime (line 285). -/
def eligArcs : Regime → Graph → List Arc
  | Regime.plain, g => g.arcs
  | Regime.snowball, g => innerArcsList g
  | Regime.citation, g => maxtermArcsList g

/-- Randomness oracle for one IFD proposal: the candidate pair the
add-move resampling loops settle on, the index `int_urand` returns for a
delete move, and the outcome of the Metropolis test
`urand() < exp(total)`. -/
structure Draw where
  addPair : Arc
  delIdx : ℕ
  accept : Bool

/-- State persisting across IFD sampler proposals: the graph and the
function-scope `static bool isDelete` of `ifdSampler` (ifdSampler.c line
214), which lives for the whole process. -/
structure IfdState where
  g : Graph
  isDelete : Bool

/-- The C initialiser of the static `isDelete` flag: `FALSE`, so the very
first proposal in a process is an add move. -/
def initIsDelete : Bool := false

/-- Record of one executed proposal: the kind of move actually made and
whether it was accepted. -/
structure MoveRec where
  isDel : Bool
  accepted : Bool
deriving DecidableEq, Repr

/-- The pre-proposal adjustment of the `isDelete` flag (ifdSampler.c lines
276-279): only in the citation regime, when a delete is pending but
`num_maxtermsender_arcs == 0`, the sampler warns and forces an add move.
The plain and snowball regimes have no such guard. -/
def forceAdd (r : Regime) (g : Graph) (isDel : Bool) : Bool :=
  match r with
  | Regime.citation =>
      if isDel && (eligArcs Regime.citation g).isEmpty then false else isDel
  | _ => isDel

/-- One proposal of `ifdSampler` (ifdSampler.c lines 231-408).  A delete
move picks the arc at the drawn index of the regime's eligible list and
removes it before computing change statistics; `none` means the delete
was attempted with no eligible arc at that index (in C, `int_urand(0)`
and an out-of-bounds read).  On acceptance with `performMove` the move is
kept (the add is inserted, the deleted arc stays removed) and the static
`isDelete` flips; on acceptance without `performMove` a deleted arc is
re-inserted and the flag still flips; on rejection a deleted arc is
re-inserted and the flag is unchanged. -/
def ifdStep (r : Regime) (performMove : Bool) (d : Draw) (s : IfdState) :
    Option (IfdState × MoveRec) :=
  let idl := forceAdd r s.g s.isDelete
  if idl then
    match (eligArcs r s.g).get? d.delIdx with
    | none => none
    | some a =>
      if d.accept then
        if performMove then
          some (⟨{ s.g with arcs := eraseArc s.g.arcs a }, !idl⟩, ⟨true, true⟩)
        else
          some (⟨{ s.g with arcs := eraseArc s.g.arcs a ++ [a] }, !idl⟩,
                ⟨true, true⟩)
      else
        some (⟨{ s.g with arcs := eraseArc s.g.arcs a ++ [a] }, idl⟩,
              ⟨true, false⟩)
  else
    if d.accept then
      if performMove then
        some (⟨{ s.g with arcs := s.g.arcs ++ [d.addPair] }, !idl⟩,
              ⟨false, true⟩)
      else
        some (⟨s.g, !idl⟩, ⟨false, true⟩)
    else
      some (⟨s.g, idl⟩, ⟨false, false⟩)

/-- The proposal loop of `ifdSampler`: `sampler_m` proposals, one draw
each, collecting the record of executed moves in order. -/
def runSteps (r : Regime) (performMove : Bool) :
    List Draw → IfdState → Option (IfdState × List MoveRec)
  | [], s => some (s, [])
  | d :: ds, s =>
    match ifdStep r performMove d s with
    | none => none
    | some (s1, m) =>
      match runSteps r performMove ds s1 with
      | none => none
      | some (s2, ms) => some (s2, m :: ms)

/-- End-of-call update of the IFD auxiliary parameter (ifdSampler.c lines
410-418): `step = ifd_K * (Ndel-Nadd)*(Ndel-Nadd) / ((Ndel+Nadd)*(Ndel+Nadd))`,
subtracted when `Ndel - Nadd > 0`, added when `Ndel - Nadd < 0`, and the
parameter left unchanged when the counts are equal. -/
def ifdAuxUpdate (ifd_K V : ℚ) (Ndel Nadd : ℕ) : ℚ :=
  let step := ifd_K * ((Ndel : ℚ) - (Nadd : ℚ)) * ((Ndel : ℚ) - (Nadd : ℚ)) /
      (((Ndel : ℚ) + (Nadd : ℚ)) * ((Ndel : ℚ) + (Nadd : ℚ)))
  if (Ndel : ℚ) - (Nadd : ℚ) > 0 then V - step
  else if (Ndel : ℚ) - (Nadd : ℚ) < 0 then V + step
  else V

/-- Result of one full `ifdSampler` call: the final graph-and-flag state,
the updated auxiliary parameter `*ifd_aux_param`, the output
`*dzArc = (double)Ndel - (double)Nadd`, and the per-proposal move
records. -/
structure IfdCallResult where
  state : IfdState
  auxParam : ℚ
  dzArc : ℚ
  recs : List MoveRec

/-- Model of one call of `ifdSampler` (ifdSampler.c lines 195-430): run
the proposal loop, count `Ndel`/`Nadd` (incremented once per delete/add
proposal, accepted or not), then update the auxiliary parameter exactly
once and return `dzArc`. -/
def ifdSampler (r : Regime) (performMove : Bool) (ifd_K : ℚ) (ds : List Draw)
    (s : IfdState) (V : ℚ) : Option IfdCallResult :=
  match runSteps r performMove ds s with
  | none => none
  | some (s1, ms) =>
    let Ndel := (ms.filter (fun m => m.isDel)).length
    let Nadd := (ms.filter (fun m => !m.isDel)).length
    some ⟨s1, ifdAuxUpdate ifd_K V Ndel Nadd, (Ndel : ℚ) - (Nadd : ℚ), ms⟩

theorem ee_estimate_errcode_eq_any (D : List FVal) :
    (ee_estimate D).errcode = (if D.any (fun d => d.isinf) then 1 else 0) := by
  have key : ∀ (l : List FVal) (acc : ℕ),
      l.foldl (fun acc d => if d.isinf then 1 else acc) acc =
        (if l.any (fun d => d.isinf) then 1 else acc) := by
    intro l
    induction l with
    | nil => intro acc; simp
    | cons d t ih =>
      intro acc
      by_cases hd : d.isinf = true
      · simp [hd, ih]
      · simp only [Bool.not_eq_true] at hd
        simp [hd, ih]
  simpa [ee_estimate] using key D 0

theorem ee_estimate_ran_iff (D : List FVal) :
    (ee_estimate D).ranAlgEE = ((ee_estimate D).errcode == 0) := rfl

/-- C1 (amended): after Algorithm S, `ee_estimate` aborts the task exactly
when some `Dmean_l` is plus or minus infinity (`isinf`): in that case it
does not run Algorithm EE and returns the non-zero code 1.  When no entry
is infinite — even if some entries are NaN — Algorithm EE is run and 0 is
returned; NaN entries are not detected by the guard. -/
theorem ee_estimate_degeneracy_guard_isinf (D : List FVal) :
    ((∃ d ∈ D, d.isinf = true) →
      (ee_estimate D).errcode = 1 ∧ (ee_estimate D).ranAlgEE = false) ∧
    ((∀ d ∈ D, d.isinf = false) →
      (ee_estimate D).errcode = 0 ∧ (ee_estimate D).ranAlgEE = true) := by
  constructor
  · intro hex
    have hany : D.any (fun d => d.isinf) = true := by
      rcases hex with ⟨d, hd, hinf⟩
      exact List.any_eq_true.mpr ⟨d, hd, hinf⟩
    have he : (ee_estimate D).errcode = 1 := by
      rw [ee_estimate_errcode_eq_any, hany]; rfl
    refine ⟨he, ?_⟩
    rw [ee_estimate_ran_iff, he]; rfl
  · intro hall
    have hany : D.any (fun d => d.isinf) = false := by
      rw [List.any_eq_false]
      intro d hd
      simp [hall d hd]
    have he : (ee_estimate D).errcode = 0 := by
      rw [ee_estimate_errcode_eq_any, hany]; rfl
    refine ⟨he, ?_⟩
    rw [ee_estimate_ran_iff, he]; rfl

/-- Witness for C1: instantiating the guard theorem at the concrete
vectors `[+inf]` (aborts with code 1) discharges its hypothesis. -/
theorem ee_estimate_degeneracy_guard_isinf_witness :
    (ee_estimate [FVal.pinf]).errcode = 1 ∧
    (ee_estimate [FVal.pinf]).ranAlgEE = false :=
  (ee_estimate_degeneracy_guard_isinf [FVal.pinf]).1
    ⟨FVal.pinf, by decide, by decide⟩

/-- Counterexample for C1 as stated: a NaN entry of `Dmean` is non-finite,
yet `ee_estimate` returns 0 and runs Algorithm EE, because the guard tests
`isinf` and `isinf(NaN)` is false in C. -/
theorem ee_estimate_nan_not_caught :
    FVal.nan.isfinite = false ∧
    (ee_estimate [FVal.nan]).errcode = 0 ∧
    (ee_estimate [FVal.nan]).ranAlgEE = true := by
  decide

/-- C2 (code bug): at a run where every external operation succeeds and
Algorithm S produces an infinite derivative entry, `ee_estimate` detects
degeneracy and returns 1, but `do_estimation` discards that return value
(the call result is not captured) and returns 0, so the process exit code
is 0 — the non-zero code is not propagated as the claim and the comments
of `ee_estimate` state. -/
theorem do_estimation_discards_ee_errcode :
    (ee_estimate
        (EstimEnv.mk true false true true true true true true false []
          false 0 [FVal.pinf]).Dmean).errcode = 1 ∧
    (do_estimation
        (EstimEnv.mk true false true true true true true true false []
          false 0 [FVal.pinf])).retcode = 0 ∧
    (do_estimation
        (EstimEnv.mk true false true true true true true true false []
          false 0 [FVal.pinf])).eeCode = some 1 ∧
    (do_estimation
        (EstimEnv.mk true false true true true true true true false []
          false 0 [FVal.pinf])).ranAlgEE = false ∧
    estimnetMainExit true
        (EstimEnv.mk true false true true true true true true false []
          false 0 [FVal.pinf]) = 0 := by
  decide

/-- C9 (amended): the estimation driver refuses every configuration that
selects the IFD sampler together with an explicit "Arc" structural
parameter: `do_estimation` returns -1 and never reaches `ee_estimate`
(hence never runs a sampler). -/
theorem do_estimation_refuses_ifd_arc (e : EstimEnv)
    (h1 : e.useIFDsampler = true)
    (h2 : containsArcName e.paramNames = true) :
    (do_estimation e).retcode = -1 ∧ (do_estimation e).calledEE = false := by
  unfold do_estimation
  repeat' split
  all_goals simp_all

/-- Witness for C9: the refusal theorem applied to a concrete
configuration with the IFD sampler and an "Arc" structural parameter. -/
theorem do_estimation_refuses_ifd_arc_witness :
    (do_estimation
        (EstimEnv.mk true false true true true true true true true
          ["Arc"] false 0 [])).retcode = -1 ∧
    (do_estimation
        (EstimEnv.mk true false true true true true true true true
          ["Arc"] false 0 [])).calledEE = false :=
  do_estimation_refuses_ifd_arc _ rfl (by decide)

/-- Counterexample for C9 as stated: the simulation driver performs no
such refusal.  A configuration with the IFD sampler active and an
explicit "Arc" structural parameter passes every check of
`do_simulation`, which reaches `simulate_ergm`, runs the sampler and
returns 0. -/
theorem do_simulation_allows_ifd_arc :
    (SimEnv.mk true false true true true true true ["Arc"] false 0).useIFDsampler
        = true ∧
    containsArcName
        (SimEnv.mk true false true true true true true ["Arc"] false 0).paramNames
        = true ∧
    do_simulation (SimEnv.mk true false true true true true true ["Arc"] false 0)
        = ⟨0, true⟩ := by
  decide

theorem eraseArc_length {l : List Arc} {a : Arc} (h : a ∈ l) :
    (eraseArc l a).length + 1 = l.length := by
  induction l with
  | nil => cases h
  | cons b t ih =>
    rw [eraseArc]
    by_cases hba : b = a
    · simp [hba]
    · have ht : a ∈ t := by
        rcases List.mem_cons.mp h with h1 | h1
        · exact absurd h1.symm hba
        · exact h1
      simp only [if_neg hba, List.length_cons]
      rw [← ih ht]

theorem eraseArc_append_perm {l : List Arc} {a : Arc} (h : a ∈ l) :
    (eraseArc l a ++ [a]).Perm l := by
  induction l with
  | nil => cases h
  | cons b t ih =>
    rw [eraseArc]
    by_cases hba : b = a
    · subst hba
      simp only [if_pos rfl]
      exact List.perm_append_singleton b t
    · have ht : a ∈ t := by
        rcases List.mem_cons.mp h with h1 | h1
        · exact absurd h1.symm hba
        · exact h1
      simp only [if_neg hba, List.cons_append]
      exact List.Perm.cons b (ih ht)

theorem eligArcs_subset {r : Regime} {g : Graph} {a : Arc}
    (h : a ∈ eligArcs r g) : a ∈ g.arcs := by
  cases r with
  | plain => exact h
  | snowball => exact (List.mem_filter.mp h).1
  | citation => exact (List.mem_filter.mp h).1

theorem eligArcs_get_mem {r : Regime} {g : Graph} {k : ℕ} {a : Arc}
    (h : (eligArcs r g).get? k = some a) : a ∈ g.arcs :=
  eligArcs_subset (List.get?_mem h)

theorem forceAdd_eq (r : Regime) (g : Graph) (b : Bool) :
    forceAdd r g b =
      (if r = Regime.citation ∧ b = true ∧ maxtermArcsList g = []
       then false else b) := by
  cases r with
  | plain => simp [forceAdd]
  | snowball => simp [forceAdd]
  | citation =>
    cases b with
    | false => simp [forceAdd]
    | true =>
      simp only [forceAdd, eligArcs, Bool.true_and, true_and]
      by_cases hl : maxtermArcsList g = []
      · simp [hl]
      · simp [hl, List.isEmpty_iff]

theorem ifdStep_cases {r : Regime} {pm : Bool} {d : Draw} {s s1 : IfdState}
    {m : MoveRec} (h : ifdStep r pm d s = some (s1, m)) :
    s1.g.num_nodes = s.g.num_nodes ∧
    s1.g.innerNode = s.g.innerNode ∧
    s1.g.maxtermNode = s.g.maxtermNode ∧
    m.accepted = d.accept ∧
    m.isDel = forceAdd r s.g s.isDelete ∧
    s1.isDelete = (if d.accept then !m.isDel else m.isDel) ∧
    (m.isDel = true →
      ∃ a, (eligArcs r s.g).get? d.delIdx = some a ∧
        ((d.accept = true ∧ pm = true ∧ s1.g.arcs = eraseArc s.g.arcs a) ∨
         ((d.accept = false ∨ pm = false) ∧
           s1.g.arcs = eraseArc s.g.arcs a ++ [a]))) ∧
    (m.isDel = false →
      ((d.accept = true ∧ pm = true ∧ s1.g.arcs = s.g.arcs ++ [d.addPair]) ∨
       ((d.accept = false ∨ pm = false) ∧ s1.g.arcs = s.g.arcs))) := by
  simp only [ifdStep] at h
  cases hidl : forceAdd r s.g s.isDelete <;> rw [hidl] at h
  · simp only [Bool.false_eq_true, if_false] at h
    cases hacc : d.accept <;> rw [hacc] at h
    · simp only [Bool.false_eq_true, if_false, Option.some.injEq,
        Prod.mk.injEq] at h
      obtain ⟨rfl, rfl⟩ := h
      exact ⟨rfl, rfl, rfl, rfl, rfl, by simp,
        by simp, fun _ => Or.inr ⟨Or.inl rfl, rfl⟩⟩
    · cases hpm : pm <;> rw [hpm] at h <;>
        simp only [Bool.false_eq_true, if_false, if_true, Option.some.injEq,
          Prod.mk.injEq] at h <;> obtain ⟨rfl, rfl⟩ := h
      · exact ⟨rfl, rfl, rfl, rfl, rfl, by simp,
          by simp, fun _ => Or.inr ⟨Or.inr rfl, rfl⟩⟩
      · exact ⟨rfl, rfl, rfl, rfl, rfl, by simp,
          by simp, fun _ => Or.inl ⟨rfl, rfl, rfl⟩⟩
  · simp only [if_true] at h
    cases hget : (eligArcs r s.g).get? d.delIdx <;> rw [hget] at h
    · exact absurd h (by simp)
    · rename_i a
      cases hacc : d.accept <;> rw [hacc] at h
      · simp only [Bool.false_eq_true, if_false, Option.some.injEq,
          Prod.mk.injEq] at h
        obtain ⟨rfl, rfl⟩ := h
        exact ⟨rfl, rfl, rfl, rfl, rfl, by simp,
          fun _ => ⟨a, rfl, Or.inr ⟨Or.inl rfl, rfl⟩⟩,
          by simp⟩
      · cases hpm : pm <;> rw [hpm] at h <;>
          simp only [Bool.false_eq_true, if_false, if_true, Option.some.injEq,
            Prod.mk.injEq] at h <;> obtain ⟨rfl, rfl⟩ := h
        · exact ⟨rfl, rfl, rfl, rfl, rfl, by simp,
            fun _ => ⟨a, rfl, Or.inr ⟨Or.inr rfl, rfl⟩⟩,
            by simp⟩
        · exact ⟨rfl, rfl, rfl, rfl, rfl, by simp,
            fun _ => ⟨a, rfl, Or.inl ⟨rfl, rfl, rfl⟩⟩,
            by simp⟩

theorem ifdStep_perm_noMove {r : Regime} {d : Draw} {s s1 : IfdState}
    {m : MoveRec} (h : ifdStep r false d s = some (s1, m)) :
    s1.g.arcs.Perm s.g.arcs := by
  obtain ⟨-, -, -, -, -, -, hdel, hadd⟩ := ifdStep_cases h
  cases hm : m.isDel
  · rcases hadd hm with ⟨-, hpm, -⟩ | ⟨-, harcs⟩
    · exact absurd hpm (by simp)
    · rw [harcs]
  · rcases hdel hm with ⟨a, hget, hc⟩
    rcases hc with ⟨-, hpm, -⟩ | ⟨-, harcs⟩
    · exact absurd hpm (by simp)
    · rw [harcs]
      exact eraseArc_append_perm (eligArcs_get_mem hget)

theorem ifdStep_numArcs {r : Regime} {d : Draw} {s s1 : IfdState}
    {m : MoveRec} (h : ifdStep r true d s = some (s1, m)) :
    (numArcs s1.g : ℤ) + (if m.isDel && m.accepted then 1 else 0) =
      (numArcs s.g : ℤ) + (if !m.isDel && m.accepted then 1 else 0) := by
  obtain ⟨-, -, -, hmacc, -, -, hdel, hadd⟩ := ifdStep_cases h
  cases hm : m.isDel
  · rcases hadd hm with ⟨hacc, -, harcs⟩ | ⟨hor, harcs⟩
    · rw [hmacc, hacc]
      simp [numArcs, harcs]
    · rcases hor with hacc | hpm
      · rw [hmacc, hacc]
        simp [numArcs, harcs]
      · exact absurd hpm (by simp)
  · rcases hdel hm with ⟨a, hget, hc⟩
    have hlen := eraseArc_length (eligArcs_get_mem hget)
    rcases hc with ⟨hacc, -, harcs⟩ | ⟨hor, harcs⟩
    · rw [hmacc, hacc]
      simp [numArcs, harcs]
      omega
    · rcases hor with hacc | hpm
      · rw [hmacc, hacc]
        simp [numArcs, harcs]
        omega
      · exact absurd hpm (by simp)

theorem runSteps_perm_noMove {r : Regime} {ds : List Draw} {s s2 : IfdState}
    {ms : List MoveRec} (h : runSteps r false ds s = some (s2, ms)) :
    s2.g.arcs.Perm s.g.arcs ∧ s2.g.num_nodes = s.g.num_nodes ∧
    s2.g.innerNode = s.g.innerNode ∧ s2.g.maxtermNode = s.g.maxtermNode := by
  induction ds generalizing s ms with
  | nil =>
    simp only [runSteps, Option.some.injEq, Prod.mk.injEq] at h
    obtain ⟨rfl, rfl⟩ := h
    exact ⟨List.Perm.refl _, rfl, rfl, rfl⟩
  | cons d ds ih =>
    simp only [runSteps] at h
    split at h
    · exact absurd h (by simp)
    · rename_i s1 m hstep
      split at h
      · exact absurd h (by simp)
      · rename_i s2x msx hrun
        simp only [Option.some.injEq, Prod.mk.injEq] at h
        obtain ⟨rfl, rfl⟩ := h
        obtain ⟨hperm, hn, hi, hmx⟩ := ih hrun
        obtain ⟨hn1, hi1, hm1, -, -, -, -, -⟩ := ifdStep_cases hstep
        exact ⟨hperm.trans (ifdStep_perm_noMove hstep), hn.trans hn1,
          hi.trans hi1, hmx.trans hm1⟩

theorem runSteps_numArcs {r : Regime} {ds : List Draw} {s s2 : IfdState}
    {ms : List MoveRec} (h : runSteps r true ds s = some (s2, ms)) :
    (numArcs s2.g : ℤ) + (ms.countP (fun m => m.isDel && m.accepted) : ℤ) =
      (numArcs s.g : ℤ) + (ms.countP (fun m => !m.isDel && m.accepted) : ℤ) := by
  induction ds generalizing s ms with
  | nil =>
    simp only [runSteps, Option.some.injEq, Prod.mk.injEq] at h
    obtain ⟨rfl, rfl⟩ := h
    simp
  | cons d ds ih =>
    simp only [runSteps] at h
    split at h
    · exact absurd h (by simp)
    · rename_i s1 m hstep
      split at h
      · exact absurd h (by simp)
      · rename_i s2x msx hrun
        simp only [Option.some.injEq, Prod.mk.injEq] at h
        obtain ⟨rfl, rfl⟩ := h
        have hstepeq := ifdStep_numArcs hstep
        have hiheq := ih hrun
        rw [List.countP_cons, List.countP_cons]
        cases hmd : m.isDel <;> cases hma : m.accepted <;>
          simp [hmd, hma] at hstepeq <;> simp [hmd, hma] <;> omega

/-- C4: one iteration of Algorithm S.  Starting from theta and D0
initialised to all zeros, each iteration computes, per position `l` and
from the sampler output, `dzA = del - add` and `sum = add + del`, then
accumulates `D0 += dzA^2`, takes `da = ACA_S / sum^2` (0 when `sum = 0`)
and updates `theta += sign(dzA) * da * dzA^2`; after the last iteration
`Dmean_l = sampler_m / D0_l`.  The code writes the sign as
`(dzA < 0 ? -1 : 1)`, which agrees with `sign(dzA)` because the step
vanishes at `dzA = 0`. -/
theorem algorithm_S_iteration_spec (ACA m : ℚ) (outs : List SOut)
    (out : SOut) (l : ℕ) :
    (algS_run ACA []).1 l = 0 ∧
    (algS_run ACA []).2 l = 0 ∧
    (algS_run ACA (outs ++ [out])).1 l =
      (algS_run ACA outs).1 l +
        signq (out.del l - out.add l) *
          (if out.add l + out.del l = 0 then 0
           else ACA / (out.add l + out.del l) ^ 2) *
          (out.del l - out.add l) ^ 2 ∧
    (algS_run ACA (outs ++ [out])).2 l =
      (algS_run ACA outs).2 l + (out.del l - out.add l) ^ 2 ∧
    (algorithm_S ACA m outs).2 l = m / (algS_run ACA outs).2 l ∧
    (algorithm_S ACA m outs).1 l = (algS_run ACA outs).1 l := by
  refine ⟨rfl, rfl, ?_, ?_, rfl, rfl⟩
  · have hrun : algS_run ACA (outs ++ [out]) =
        algS_iter ACA out (algS_run ACA outs) := by
      simp [algS_run, List.foldl_append]
    rw [hrun]
    show (algS_run ACA outs).1 l +
        (if out.del l - out.add l < 0 then -1 else 1) *
          (if out.add l + out.del l < 0 ∨ out.add l + out.del l > 0 then
            ACA / ((out.add l + out.del l) * (out.add l + out.del l))
           else 0) *
          ((out.del l - out.add l) * (out.del l - out.add l)) = _
    have hda : (if out.add l + out.del l < 0 ∨ out.add l + out.del l > 0 then
          ACA / ((out.add l + out.del l) * (out.add l + out.del l))
        else 0) =
        (if out.add l + out.del l = 0 then 0
         else ACA / (out.add l + out.del l) ^ 2) := by
      rcases lt_trichotomy (out.add l + out.del l) 0 with hs | hs | hs
      · rw [if_pos (Or.inl hs), if_neg (ne_of_lt hs), sq]
      · rw [if_pos hs]
        rw [if_neg]
        simp [hs]
      · rw [if_pos (Or.inr hs), if_neg (ne_of_gt hs), sq]
    rw [hda]
    rcases lt_trichotomy (out.del l - out.add l) 0 with hz | hz | hz
    · rw [if_pos hz, signq, if_pos hz]
      ring_nf
    · rw [hz]
      norm_num [signq]
    · rw [if_neg (not_lt_of_gt hz), signq, if_neg (not_lt_of_gt hz),
        if_neg (ne_of_gt hz)]
      ring_nf
  · have hrun : algS_run ACA (outs ++ [out]) =
        algS_iter ACA out (algS_run ACA outs) := by
      simp [algS_run, List.foldl_append]
    rw [hrun]
    show (algS_run ACA outs).2 l +
        (out.del l - out.add l) * (out.del l - out.add l) = _
    rw [sq]

/-- C6 (amended): with `useBorisenkoUpdate`, the Algorithm EE inner loop
keeps the running accumulator `dzA` across inner iterations (never reset:
each iteration adds `addSum - delSum`), and updates each position by
`theta -= sign(dzA) * learningRate * max(|theta|, minTheta)` whenever the
accumulated `dzA` is non-zero.  When `dzA = 0` the code takes the sign
factor `-1` (from `dzA < 0 ? 1 : -1`), so the step is
`-learningRate * max(|theta|, minTheta)`, not zero. -/
theorem borisenko_update_spec (ACA lr mt : ℚ) (D0 theta0 : ℕ → ℚ)
    (outs : List SOut) (out : SOut) (l : ℕ) :
    (algorithm_EE_run true ACA lr mt D0 theta0 (outs ++ [out])).2 l =
      (algorithm_EE_run true ACA lr mt D0 theta0 outs).2 l +
        (out.add l - out.del l) ∧
    ((algorithm_EE_run true ACA lr mt D0 theta0 outs).2 l +
        (out.add l - out.del l) ≠ 0 →
      (algorithm_EE_run true ACA lr mt D0 theta0 (outs ++ [out])).1 l =
        (algorithm_EE_run true ACA lr mt D0 theta0 outs).1 l -
          signq ((algorithm_EE_run true ACA lr mt D0 theta0 outs).2 l +
              (out.add l - out.del l)) *
            lr * max |(algorithm_EE_run true ACA lr mt D0 theta0 outs).1 l| mt) ∧
    ((algorithm_EE_run true ACA lr mt D0 theta0 outs).2 l +
        (out.add l - out.del l) = 0 →
      (algorithm_EE_run true ACA lr mt D0 theta0 (outs ++ [out])).1 l =
        (algorithm_EE_run true ACA lr mt D0 theta0 outs).1 l -
          lr * max |(algorithm_EE_run true ACA lr mt D0 theta0 outs).1 l| mt) := by
  have hrun : algorithm_EE_run true ACA lr mt D0 theta0 (outs ++ [out]) =
      algorithm_EE_innerStep true ACA lr mt D0 out
        (algorithm_EE_run true ACA lr mt D0 theta0 outs) := by
    simp [algorithm_EE_run, List.foldl_append]
  set p := algorithm_EE_run true ACA lr mt D0 theta0 outs with hp
  refine ⟨by rw [hrun]; rfl, ?_, ?_⟩
  · intro hne
    rw [hrun]
    show p.1 l +
        (if p.2 l + (out.add l - out.del l) < 0 then 1 else -1) * lr *
          max |p.1 l| mt = _
    rcases lt_trichotomy (p.2 l + (out.add l - out.del l)) 0 with hz | hz | hz
    · rw [if_pos hz, signq, if_pos hz]
      ring
    · exact absurd hz hne
    · rw [if_neg (not_lt_of_gt hz), signq, if_neg (not_lt_of_gt hz),
        if_neg (ne_of_gt hz)]
      ring
  · intro hz
    rw [hrun]
    show p.1 l +
        (if p.2 l + (out.add l - out.del l) < 0 then 1 else -1) * lr *
          max |p.1 l| mt = _
    rw [if_neg (by rw [hz]; exact lt_irrefl 0)]
    ring

/-- Witness for C6 (amended): the update theorem instantiated at a single
inner iteration with accumulated `dzA = 2`, `learningRate = 1`,
`minTheta = 1` and current `theta = 2`: the step is
`-sign(2) * 1 * max(2,1) = -2`, so theta moves from 2 to 0. -/
theorem borisenko_update_spec_witness :
    (algorithm_EE_run true 0 1 1 (fun _ => 0) (fun _ => 2)
        ([] ++ [SOut.mk (fun _ => 3) (fun _ => 1)])).1 0 = 0 := by
  have h := (borisenko_update_spec 0 1 1 (fun _ => 0) (fun _ => 2) []
      (SOut.mk (fun _ => 3) (fun _ => 1)) 0).2.1
  have hne : (algorithm_EE_run true 0 1 1 (fun _ => 0) (fun _ => 2) []).2 0 +
      ((SOut.mk (fun _ => 3) (fun _ => 1)).add 0 -
        (SOut.mk (fun _ => 3) (fun _ => 1)).del 0) ≠ 0 := by
    norm_num [algorithm_EE_run]
  rw [h hne]
  norm_num [algorithm_EE_run, signq]

/-- Counterexample for C6 as stated: with `learningRate = 1`,
`minTheta = 1`, current `theta = 0` and an inner iteration whose add and
delete sums are equal (so the accumulated `dzA` is 0), the code steps
theta to -1, whereas the claimed update `theta - sign(0) * ...` would
leave theta at 0. -/
theorem borisenko_zero_dzA_step_nonzero :
    (algorithm_EE_run true 0 1 1 (fun _ => 0) (fun _ => 0)
        [SOut.mk (fun _ => 5) (fun _ => 5)]).1 0 = -1 ∧
    (algorithm_EE_run true 0 1 1 (fun _ => 0) (fun _ => 0)
        [SOut.mk (fun _ => 5) (fun _ => 5)]).2 0 = 0 ∧
    (0 : ℚ) - signq 0 * 1 * max |(0 : ℚ)| 1 = 0 ∧
    (-1 : ℚ) ≠ 0 := by
  refine ⟨?_, ?_, ?_, ?_⟩ <;>
    norm_num [algorithm_EE_run, algorithm_EE_innerStep, signq]

theorem countP_and_accepted (p : MoveRec → Bool) :
    ∀ (ms : List MoveRec),
      ms.countP (fun m => p m && m.accepted) =
        (ms.filter (fun m => m.accepted)).countP p := by
  intro ms
  induction ms with
  | nil => rfl
  | cons m t ih =>
    cases hma : m.accepted <;>
      simp [List.countP_cons, List.filter_cons, hma, ih]

/-- C3: with `performMove = true`, over any IFD proposal-loop run whose
accepted proposals are exactly an add move followed by a delete move (any
number of rejected proposals elsewhere in the run), the arc count is
exactly restored: `num_arcs` after the run equals `num_arcs` before. -/
theorem ifd_round_preserves_num_arcs {r : Regime} {ds : List Draw}
    {s s2 : IfdState} {ms : List MoveRec} {m1 m2 : MoveRec}
    (h : runSteps r true ds s = some (s2, ms))
    (hacc : ms.filter (fun m => m.accepted) = [m1, m2])
    (h1 : m1.isDel = false) (h2 : m2.isDel = true) :
    numArcs s2.g = numArcs s.g := by
  have hcount := runSteps_numArcs h
  have e1 : ms.countP (fun m => m.isDel && m.accepted) = 1 := by
    rw [countP_and_accepted (fun m => m.isDel) ms, hacc]
    simp [List.countP_cons, h1, h2]
  have e2 : ms.countP (fun m => !m.isDel && m.accepted) = 1 := by
    rw [countP_and_accepted (fun m => !m.isDel) ms, hacc]
    simp [List.countP_cons, h1, h2]
  rw [e1, e2] at hcount
  omega

/-- Witness for C3: a concrete plain-regime run on a graph with one arc
(5,6): an accepted add of (0,1) then an accepted delete of arc index 0;
the arc count is 1 before and after. -/
theorem ifd_round_preserves_num_arcs_witness :
    numArcs (Graph.mk 2 [(0, 1)] (fun _ => true) (fun _ => true)) =
      numArcs (Graph.mk 2 [(5, 6)] (fun _ => true) (fun _ => true)) :=
  @ifd_round_preserves_num_arcs Regime.plain
    [⟨(0, 1), 0, true⟩, ⟨(0, 0), 0, true⟩]
    ⟨⟨2, [(5, 6)], fun _ => true, fun _ => true⟩, false⟩
    ⟨⟨2, [(0, 1)], fun _ => true, fun _ => true⟩, false⟩
    [⟨false, true⟩, ⟨true, true⟩]
    ⟨false, true⟩ ⟨true, true⟩
    rfl rfl rfl rfl

/-- C5: every completed call of the IFD sampler updates the auxiliary
parameter exactly once, at the end, by the amount
`ifd_K * (Ndel - Nadd)^2 / (Ndel + Nadd)^2` where `Ndel`/`Nadd` count the
delete/add proposals of the call (accepted or not): V decreases when
`Ndel > Nadd`, increases when `Nadd > Ndel`, and is unchanged when they
are equal; and the output `dzArc` is `Ndel - Nadd`. -/
theorem ifdSampler_aux_param_update {r : Regime} {pm : Bool} {K : ℚ}
    {ds : List Draw} {s : IfdState} {V : ℚ} {res : IfdCallResult}
    (h : ifdSampler r pm K ds s V = some res) :
    ((res.recs.filter (fun m => m.isDel)).length >
        (res.recs.filter (fun m => !m.isDel)).length →
      res.auxParam = V -
        K * (((res.recs.filter (fun m => m.isDel)).length : ℚ) -
            ((res.recs.filter (fun m => !m.isDel)).length : ℚ)) ^ 2 /
          ((((res.recs.filter (fun m => m.isDel)).length : ℚ) +
              ((res.recs.filter (fun m => !m.isDel)).length : ℚ)) ^ 2)) ∧
    ((res.recs.filter (fun m => !m.isDel)).length >
        (res.recs.filter (fun m => m.isDel)).length →
      res.auxParam = V +
        K * (((res.recs.filter (fun m => m.isDel)).length : ℚ) -
            ((res.recs.filter (fun m => !m.isDel)).length : ℚ)) ^ 2 /
          ((((res.recs.filter (fun m => m.isDel)).length : ℚ) +
              ((res.recs.filter (fun m => !m.isDel)).length : ℚ)) ^ 2)) ∧
    ((res.recs.filter (fun m => m.isDel)).length =
        (res.recs.filter (fun m => !m.isDel)).length →
      res.auxParam = V) ∧
    res.dzArc = ((res.recs.filter (fun m => m.isDel)).length : ℚ) -
      ((res.recs.filter (fun m => !m.isDel)).length : ℚ) := by
  simp only [ifdSampler] at h
  split at h
  · exact absurd h (by simp)
  · rename_i s1 ms hrun
    simp only [Option.some.injEq] at h
    subst h
    dsimp only
    set n := (ms.filter (fun m => m.isDel)).length with hn
    set k := (ms.filter (fun m => !m.isDel)).length with hk
    unfold ifdAuxUpdate
    refine ⟨?_, ?_, ?_, rfl⟩
    · intro hgt
      have hq : (0 : ℚ) < (n : ℚ) - k := sub_pos.mpr (by exact_mod_cast hgt)
      rw [if_pos hq]
      ring_nf
    · intro hgt
      have hq : ((n : ℚ) - k) < 0 := sub_neg.mpr (by exact_mod_cast hgt)
      rw [if_neg (asymm hq), if_pos hq]
      ring_nf
    · intro heq
      have hq : ((n : ℚ) - k) = 0 := sub_eq_zero.mpr (by exact_mod_cast heq)
      rw [if_neg (by rw [hq]; exact lt_irrefl 0),
        if_neg (by rw [hq]; exact lt_irrefl 0)]

/-- Witness for C5: the update theorem applied to a concrete call with no
proposals, so `Ndel = Nadd = 0`: with `ifd_K = 2` and incoming `V = 3`
the auxiliary parameter is unchanged. -/
theorem ifdSampler_aux_param_update_witness : ifdAuxUpdate 2 3 0 0 = 3 :=
  (@ifdSampler_aux_param_update Regime.plain false 2 []
      ⟨⟨1, [], fun _ => true, fun _ => true⟩, false⟩ 3
      ⟨⟨⟨1, [], fun _ => true, fun _ => true⟩, false⟩, ifdAuxUpdate 2 3 0 0,
        ((0 : ℕ) : ℚ) - ((0 : ℕ) : ℚ), []⟩ rfl).2.2.1 rfl

theorem arcMem_perm {l1 l2 : List Arc} (h : l1.Perm l2) (a : Arc) :
    arcMem l1 a = arcMem l2 a := by
  unfold arcMem
  exact decide_eq_decide.mpr h.mem_iff

theorem countP_congr_list {α : Type} {p q : α → Bool} :
    ∀ (l : List α), (∀ a ∈ l, p a = q a) → l.countP p = l.countP q := by
  intro l
  induction l with
  | nil => intro _; rfl
  | cons a t ih =>
    intro hpq
    rw [List.countP_cons, List.countP_cons, hpq a (List.mem_cons_self a t),
      ih (fun b hb => hpq b (List.mem_cons_of_mem a hb))]

theorem mixTwoPathCount_congr {g1 g2 : Graph} (hn : g1.num_nodes = g2.num_nodes)
    (hp : g1.arcs.Perm g2.arcs) (i j : ℕ) :
    mixTwoPathCount g1 i j = mixTwoPathCount g2 i j := by
  unfold mixTwoPathCount
  rw [hn]
  exact countP_congr_list _ (fun k _ => by rw [arcMem_perm hp, arcMem_perm hp])

theorem inTwoPathCount_congr {g1 g2 : Graph} (hn : g1.num_nodes = g2.num_nodes)
    (hp : g1.arcs.Perm g2.arcs) (i j : ℕ) :
    inTwoPathCount g1 i j = inTwoPathCount g2 i j := by
  unfold inTwoPathCount
  rw [hn]
  exact countP_congr_list _ (fun k _ => by rw [arcMem_perm hp, arcMem_perm hp])

theorem outTwoPathCount_congr {g1 g2 : Graph} (hn : g1.num_nodes = g2.num_nodes)
    (hp : g1.arcs.Perm g2.arcs) (i j : ℕ) :
    outTwoPathCount g1 i j = outTwoPathCount g2 i j := by
  unfold outTwoPathCount
  rw [hn]
  exact countP_congr_list _ (fun k _ => by rw [arcMem_perm hp, arcMem_perm hp])

/-- C7: a call of the IFD sampler with `performMove = false` does not
mutate the graph, whatever the regime and whatever was accepted or
rejected: the arc multiset is restored (every delete is undone by
re-insertion and no accepted add is committed), hence `num_arcs`, all
degrees, all two-path counters and the conditional side lists are equal
to their values before the call; in particular an empty graph remains
empty. -/
theorem ifdSampler_performMove_false_preserves_graph {r : Regime} {K : ℚ}
    {ds : List Draw} {s : IfdState} {V : ℚ} {res : IfdCallResult}
    (h : ifdSampler r false K ds s V = some res) :
    res.state.g.arcs.Perm s.g.arcs ∧
    res.state.g.num_nodes = s.g.num_nodes ∧
    numArcs res.state.g = numArcs s.g ∧
    (∀ i, outdeg res.state.g i = outdeg s.g i) ∧
    (∀ j, indeg res.state.g j = indeg s.g j) ∧
    (∀ i j, mixTwoPathCount res.state.g i j = mixTwoPathCount s.g i j) ∧
    (∀ i j, inTwoPathCount res.state.g i j = inTwoPathCount s.g i j) ∧
    (∀ i j, outTwoPathCount res.state.g i j = outTwoPathCount s.g i j) ∧
    (innerArcsList res.state.g).Perm (innerArcsList s.g) ∧
    (maxtermArcsList res.state.g).Perm (maxtermArcsList s.g) ∧
    (s.g.arcs = [] → res.state.g.arcs = []) := by
  simp only [ifdSampler] at h
  split at h
  · exact absurd h (by simp)
  · rename_i s1 ms hrun
    simp only [Option.some.injEq] at h
    subst h
    dsimp only
    obtain ⟨hperm, hn, hi, hmx⟩ := runSteps_perm_noMove hrun
    refine ⟨hperm, hn, hperm.length_eq, fun i => hperm.countP_eq _,
      fun j => hperm.countP_eq _,
      mixTwoPathCount_congr hn hperm, inTwoPathCount_congr hn hperm,
      outTwoPathCount_congr hn hperm, ?_, ?_, ?_⟩
    · unfold innerArcsList
      rw [hi]
      exact hperm.filter _
    · unfold maxtermArcsList
      rw [hmx]
      exact hperm.filter _
    · intro he
      rw [he] at hperm
      exact hperm.eq_nil

/-- Witness for C7: a concrete one-proposal call (a rejected delete of
the single arc (0,1) with `performMove = false`): the arc list is
restored and the arc count is unchanged. -/
theorem ifdSampler_performMove_false_preserves_graph_witness :
    numArcs (IfdState.mk (Graph.mk 2 [(0, 1)] (fun _ => true)
        (fun _ => true)) true).g =
      numArcs (IfdState.mk (Graph.mk 2 [(0, 1)] (fun _ => true)
        (fun _ => true)) true).g :=
  (@ifdSampler_performMove_false_preserves_graph Regime.plain 0
      [⟨(9, 9), 0, false⟩]
      ⟨⟨2, [(0, 1)], fun _ => true, fun _ => true⟩, true⟩ 0
      ⟨⟨⟨2, [(0, 1)], fun _ => true, fun _ => true⟩, true⟩,
        ifdAuxUpdate 0 0 1 0, (1 : ℚ) - 0, [⟨true, false⟩]⟩ rfl).2.2.1

/-- C8 (amended): a delete move chosen when there are zero eligible arcs
is switched to an add move (with a warning) only in the citation regime,
where the sampler tests `num_maxtermsender_arcs == 0` before the move.
The plain and snowball regimes have no such guard: there the sampler
proceeds into the delete branch with no eligible arc (in C,
`int_urand(0)` and an out-of-bounds arc-list read), modelled here as a
step with no defined successor. -/
theorem ifd_delete_empty_behavior (pm : Bool) (d : Draw) (s : IfdState)
    (hdel : s.isDelete = true) :
    (maxtermArcsList s.g = [] →
      (ifdStep Regime.citation pm d s).map (fun p => p.2.isDel) = some false) ∧
    (s.g.arcs = [] → ifdStep Regime.plain pm d s = none) ∧
    (innerArcsList s.g = [] → ifdStep Regime.snowball pm d s = none) := by
  refine ⟨?_, ?_, ?_⟩
  · intro hmt
    have hforce : forceAdd Regime.citation s.g s.isDelete = false := by
      rw [forceAdd_eq]
      simp [hdel, hmt]
    simp only [ifdStep, hforce, Bool.false_eq_true, if_false]
    cases hacc : d.accept <;> cases hpm : pm <;> simp [hacc, hpm]
  · intro harc
    have helig : eligArcs Regime.plain s.g = [] := harc
    simp [ifdStep, forceAdd, hdel, helig]
  · intro hin
    have helig : eligArcs Regime.snowball s.g = [] := hin
    simp [ifdStep, forceAdd, hdel, helig]

/-- Witness for C8 (amended): concrete empty graph, delete pending: the
citation regime executes an add move, the plain regime has no successor. -/
theorem ifd_delete_empty_behavior_witness :
    (ifdStep Regime.citation false ⟨(0, 1), 0, false⟩
        ⟨⟨2, [], fun _ => true, fun _ => true⟩, true⟩).map
      (fun p => p.2.isDel) = some false ∧
    ifdStep Regime.plain false ⟨(0, 1), 0, false⟩
        ⟨⟨2, [], fun _ => true, fun _ => true⟩, true⟩ = none :=
  ⟨(ifd_delete_empty_behavior false ⟨(0, 1), 0, false⟩
      ⟨⟨2, [], fun _ => true, fun _ => true⟩, true⟩ rfl).1 rfl,
   (ifd_delete_empty_behavior false ⟨(0, 1), 0, false⟩
      ⟨⟨2, [], fun _ => true, fun _ => true⟩, true⟩ rfl).2.1 rfl⟩

/-- Counterexample for C8 as stated: in the plain regime with a delete
move pending and zero arcs, the sampler does not switch to an add move —
it attempts the delete (no defined successor in the model); under the
same conditions the citation regime does switch and executes an add. -/
theorem ifd_delete_no_flip_plain :
    ifdStep Regime.plain true ⟨(0, 1), 0, true⟩
      ⟨⟨2, [], fun _ => true, fun _ => true⟩, true⟩ = none ∧
    (ifdStep Regime.citation true ⟨(0, 1), 0, true⟩
        ⟨⟨2, [], fun _ => true, fun _ => true⟩, true⟩).map
      (fun p => p.2.isDel) = some false :=
  ⟨rfl, rfl⟩

/-- C10 (amended): the move kind executed by a proposal is the incoming
static `isDelete`, except that the citation regime forces it to add when
a delete is pending and there are zero max-term-sender arcs; the flag
afterwards is the executed kind flipped iff the proposal was accepted
(so after a rejection the next proposal has the same kind, except for
the citation forcing); the acceptance recorded is the Metropolis draw;
and since the process-global flag starts as `FALSE`, the first proposal
in a process is an add move.  The flag is threaded through every call,
so it persists from Algorithm S into Algorithm EE. -/
theorem ifd_isdelete_transition_spec {r : Regime} {pm : Bool} {d : Draw}
    {s s1 : IfdState} {m : MoveRec} (h : ifdStep r pm d s = some (s1, m)) :
    m.isDel = (if r = Regime.citation ∧ s.isDelete = true ∧
                  maxtermArcsList s.g = []
               then false else s.isDelete) ∧
    s1.isDelete = (if m.accepted then !m.isDel else m.isDel) ∧
    m.accepted = d.accept ∧
    (s.isDelete = initIsDelete → m.isDel = false) := by
  obtain ⟨-, -, -, hmacc, hmdel, hs1, -, -⟩ := ifdStep_cases h
  rw [forceAdd_eq] at hmdel
  refine ⟨hmdel, ?_, hmacc, ?_⟩
  · rw [hmacc]
    exact hs1
  · intro hsd
    rw [hmdel, hsd]
    simp [initIsDelete]

/-- Witness for C10 (amended): the transition theorem applied to a
concrete accepted add step in the plain regime. -/
theorem ifd_isdelete_transition_spec_witness :
    (MoveRec.mk false true).accepted = (Draw.mk (0, 1) 0 true).accept :=
  (@ifd_isdelete_transition_spec Regime.plain true ⟨(0, 1), 0, true⟩
      ⟨⟨1, [], fun _ => true, fun _ => true⟩, false⟩
      ⟨⟨1, [] ++ [(0, 1)], fun _ => true, fun _ => true⟩, true⟩
      ⟨false, true⟩ rfl).2.2.1

/-- Counterexample for C10 as stated: a two-proposal citation-regime
trace starting from the initial static flag (add pending) on a graph
with no max-term-sender arcs and `performMove = false`.  The first
proposal is an accepted add, so, per the claim, the kind should flip and
the second proposal should be a delete; instead the zero-arc guard
forces the second proposal to be an add: the kind did not flip after an
accepted proposal. -/
theorem ifd_isdelete_forced_flip_trace :
    (runSteps Regime.citation false [⟨(0, 1), 0, true⟩, ⟨(0, 1), 0, false⟩]
        ⟨⟨2, [], fun _ => true, fun _ => true⟩, false⟩).map (fun p => p.2) =
      some [⟨false, true⟩, ⟨false, false⟩] ∧
    (MoveRec.mk false true).accepted = true ∧
    (MoveRec.mk false false).isDel = (MoveRec.mk false true).isDel :=
  ⟨rfl, rfl, rfl⟩
